import Mathlib

/-!
Shallow embedding of the LSP demo server (`server.js`) of this repository.

Documents are modelled as `List Char`; the document-synchronization layer
(`documents`) as a partial map `String → Option (List Char)` from URI to
current text; the process-wide `symbolTable` as a total map
`String → List LspSymbol` (JavaScript's `symbolTable[uri] || []` makes a
missing entry behave exactly like an empty list everywhere it is read).

Positions and characters are `Int` because the handlers receive raw protocol
values that may be negative; JavaScript behaviours that matter at the edges
(array indexing with a negative index yielding `undefined`, `undefined.length`
throwing a `TypeError`, `String(undefined) = "undefined"` matching the
identifier character class) are embedded explicitly where they occur.
Fallible code is embedded in `Except String`.
-/

/-- The identifier character class `[a-zA-Z0-9_$]` used by both declaration
regexes and by `getWordAtPosition`. -/
def isIdentChar (c : Char) : Bool :=
  c.isAlphanum || c == '_' || c == '$'

/-- JavaScript's `\w` class `[A-Za-z0-9_]`, used by the `\b` word-boundary
assertion (note: `$` is *not* a `\w` character). -/
def isWordCharJS (c : Char) : Bool :=
  c.isAlphanum || c == '_'

/-- JavaScript's `\s` class, restricted to the code-unit range that can occur
in this development's documents (space, tab, LF, CR, VT, FF). -/
def isSpaceJS (c : Char) : Bool :=
  c == ' ' || c == '\t' || c == '\n' || c == '\r' || c == '\x0b' || c == '\x0c'

/-- `text.split(/\r?\n/g)`: split on `\n`, consuming one `\r` immediately
before it; a bare `\r` is not a separator.  Always yields at least one
(possibly empty) line. -/
def splitLines : List Char → List (List Char)
  | [] => [[]]
  | '\n' :: rest => [] :: splitLines rest
  | '\r' :: '\n' :: rest => [] :: splitLines rest
  | c :: rest =>
    match splitLines rest with
    | [] => [[c]]
    | l :: ls => (c :: l) :: ls

/-- Index of the first occurrence of `needle` as a contiguous substring of
`hay` (`none` when there is none). -/
def findSub : List Char → List Char → Option Nat
  | [], needle => if needle.isEmpty then some 0 else none
  | c :: rest, needle =>
    if needle.isPrefixOf (c :: rest) then some 0
    else (findSub rest needle).map (fun k => k + 1)

/-- JavaScript `hay.indexOf(needle)`: first-occurrence index, `-1` if absent. -/
def jsIndexOf (hay needle : List Char) : Int :=
  match findSub hay needle with
  | some k => (k : Int)
  | none => -1

/-- JavaScript `s.substring(a, b)`: both arguments are clamped to
`[0, s.length]` and swapped if out of order, then the slice is taken. -/
def substringJS (s : List Char) (a b : Int) : List Char :=
  let a' := min (max a 0) (s.length : Int)
  let b' := min (max b 0) (s.length : Int)
  let lo := min a' b'
  let hi := max a' b'
  (s.take hi.toNat).drop lo.toNat

/-- JavaScript array/string indexing `l[i]`: `undefined` (here `none`) when
`i` is negative or past the end. -/
def arrayGet? {α : Type} (l : List α) (i : Int) : Option α :=
  if h : 0 ≤ i ∧ i.toNat < l.length then some (l.get ⟨i.toNat, h.2⟩) else none

/-- The slice of a line between two recorded character offsets (used to state
that a recorded range really covers the recorded name). -/
def lineSlice (l : List Char) (a b : Int) : List Char :=
  (l.take b.toNat).drop a.toNat

/- ### Positions, ranges, symbols, diagnostics -/

/-- A protocol position `{line, character}`. -/
structure Pos where
  line : Int
  character : Int
deriving DecidableEq, Repr

/-- A protocol range `{start, end}` (`end` is a Lean keyword; the field is
called `stop` here). -/
structure Range where
  start : Pos
  stop : Pos
deriving DecidableEq, Repr

/-- An entry of `symbolTable[uri]`: `{name, range, type, docUri}` where
`type` is the string `"variable"` or `"function"`. -/
structure LspSymbol where
  name : List Char
  range : Range
  type : String
  docUri : String
deriving DecidableEq, Repr

/-- A published diagnostic `{severity, range, message, source}`. -/
structure Diagnostic where
  severity : Nat
  range : Range
  message : String
  source : String
deriving DecidableEq, Repr

/-- A `{uri, range}` location, as returned by definition/references. -/
structure Location where
  uri : String
  range : Range
deriving DecidableEq, Repr

/-- A workspace text edit `{range, newText}` produced by rename. -/
structure TextEdit where
  range : Range
  newText : List Char
deriving DecidableEq, Repr

/-- The `contents` object returned by hover: `{kind: 'markdown', value}`. -/
structure HoverContents where
  kind : String
  value : List Char
deriving DecidableEq, Repr

/- ### The declaration regexes

`varRegex  = /\b(?:let|const)\s+([a-zA-Z0-9_$]+)\s*=/`
`funcRegex = /\bfunction\s+([a-zA-Z0-9_$]+)\s*\(/`

`line.match(r)` scans candidate start positions left to right and returns the
first full match; the capture group is the identifier.  Because the space
class, the identifier class, and the final literal (`=` resp. `(`) are
pairwise disjoint, greedy maximal-munch matching is equivalent to the
backtracking engine for these two patterns. -/

/-- Match `\s+([a-zA-Z0-9_$]+)\s*E` (the part after the keyword) at the start
of `rest`, returning the capture group. -/
def matchTail (endCh : Char) (rest : List Char) : Option (List Char) :=
  let sp := rest.takeWhile isSpaceJS
  let r1 := rest.dropWhile isSpaceJS
  if sp.isEmpty then none
  else
    let cap := r1.takeWhile isIdentChar
    let r2 := r1.dropWhile isIdentChar
    if cap.isEmpty then none
    else
      match r2.dropWhile isSpaceJS with
      | c :: _ => if c == endCh then some cap else none
      | [] => none

/-- Match `\bKW\s+([a-zA-Z0-9_$]+)\s*E` at the start of `l`, where
`prevIsWord` says whether the character before `l` is a `\w` character
(the `\b` assertion; the keyword begins with a word character, so the
boundary holds iff the previous character is not one). -/
def matchDeclAt (kw : List Char) (endCh : Char) (prevIsWord : Bool) (l : List Char) :
    Option (List Char) :=
  if prevIsWord then none
  else if kw.isPrefixOf l then matchTail endCh (l.drop kw.length)
  else none

/-- One candidate position of `varRegex`: alternation `let | const`. -/
def matchVarAt (prevIsWord : Bool) (l : List Char) : Option (List Char) :=
  match matchDeclAt ("let".data) '=' prevIsWord l with
  | some name => some name
  | none => matchDeclAt ("const".data) '=' prevIsWord l

/-- One candidate position of `funcRegex`. -/
def matchFuncAt (prevIsWord : Bool) (l : List Char) : Option (List Char) :=
  matchDeclAt ("function".data) '(' prevIsWord l

/-- Left-to-right scan over candidate start positions, as `String.match`
does; `prev` tracks whether the previous character is a word character.
The initial call uses `false` (start of string is a boundary before a word
character).  Neither pattern can match the empty suffix. -/
def findFirstMatch (m : Bool → List Char → Option (List Char)) :
    Bool → List Char → Option (List Char)
  | _, [] => none
  | prev, c :: cs =>
    match m prev (c :: cs) with
    | some name => some name
    | none => findFirstMatch m (isWordCharJS c) cs

/-- `line.match(varRegex)`'s capture group. -/
def varCapture (l : List Char) : Option (List Char) :=
  findFirstMatch matchVarAt false l

/-- `line.match(funcRegex)`'s capture group. -/
def funcCapture (l : List Char) : Option (List Char) :=
  findFirstMatch matchFuncAt false l

/- ### Symbol indexing (`parseDocumentSymbols`) -/

/-- The loop body of `parseDocumentSymbols` for line `i`: push at most one
variable symbol and then at most one function symbol, each with
`startChar = line.indexOf(name)` and `endChar = startChar + name.length`. -/
def parseLine (uri : String) (i : Nat) (line : List Char) : List LspSymbol :=
  (match varCapture line with
   | some name =>
     [⟨name,
       ⟨⟨(i : Int), jsIndexOf line name⟩,
        ⟨(i : Int), jsIndexOf line name + (name.length : Int)⟩⟩,
       "variable", uri⟩]
   | none => []) ++
  (match funcCapture line with
   | some name =>
     [⟨name,
       ⟨⟨(i : Int), jsIndexOf line name⟩,
        ⟨(i : Int), jsIndexOf line name + (name.length : Int)⟩⟩,
       "function", uri⟩]
   | none => [])

/-- The `for (let i = 0; ...)` loop of `parseDocumentSymbols`. -/
def parseLines (uri : String) : Nat → List (List Char) → List LspSymbol
  | _, [] => []
  | i, l :: ls => parseLine uri i l ++ parseLines uri (i + 1) ls

/-- The full list of symbols `parseDocumentSymbols` records for `uri`. -/
def parseDocumentSymbols (uri : String) (text : List Char) : List LspSymbol :=
  parseLines uri 0 (splitLines text)

/-- The state effect of `parseDocumentSymbols`: `symbolTable[uri] = []`
followed by the pushes, i.e. wholesale replacement of the entry for `uri`,
leaving every other entry untouched. -/
def indexDocument (st : String → List LspSymbol) (uri : String) (text : List Char) :
    String → List LspSymbol :=
  fun u => if u = uri then parseDocumentSymbols uri text else st u

/- ### Diagnostics (`validateTextDocument`) -/

/-- The diagnostics loop: one Warning per line longer than 80, with range
from character 80 to the line length. -/
def validateLines : Nat → List (List Char) → List Diagnostic
  | _, [] => []
  | i, l :: ls =>
    (if 80 < l.length then
      [⟨2,
        ⟨⟨(i : Int), 80⟩, ⟨(i : Int), (l.length : Int)⟩⟩,
        "Line exceeds 80 characters.", "demo-lsp"⟩]
     else []) ++ validateLines (i + 1) ls

/-- `validateTextDocument`'s returned diagnostics array. -/
def validateTextDocument (text : List Char) : List Diagnostic :=
  validateLines 0 (splitLines text)

/- ### Word extraction (`getWordAtPosition`) -/

/-- The backward while loop `while (start > 0 && idChar(lineText[start-1]))
start--;`.  For a non-negative `character` it subtracts the length of the
maximal identifier-character run immediately to the left of `character`
(the `start > 0` guard stops the walk at 0); for a negative `character` the
guard fails at once and `start` stays put. -/
def scanStart (line : List Char) (character : Int) : Int :=
  if character < 0 then character
  else character - (((line.take character.toNat).reverse.takeWhile isIdentChar).length : Int)

/-- The forward while loop `while (end < len && idChar(lineText[end])) end++;`.
For a non-negative `character` it adds the length of the maximal
identifier-character run starting at `character`.  For a negative
`character`, `lineText[end]` is `undefined` while `end < 0`, and
`/[a-zA-Z0-9_$]/.test(undefined)` is `true` (the test coerces `undefined`
to the string `"undefined"`, which contains letters), so the loop walks up
to 0 and then through the identifier-character prefix of the line. -/
def scanEnd (line : List Char) (character : Int) : Int :=
  if character < 0 then ((line.takeWhile isIdentChar).length : Int)
  else character + (((line.drop character.toNat).takeWhile isIdentChar).length : Int)

/-- `getWordAtPosition(textDocument, line, character)`.  `Except.error`
models the `TypeError` thrown when `line` is negative: `lines[line]` is
`undefined` and reading `undefined.length` throws.  `Except.ok none` is the
function's `return null`; note that only the upper bounds are checked. -/
def getWordAtPosition (text : List Char) (line character : Int) :
    Except String (Option (List Char)) :=
  let lines := splitLines text
  if ((lines.length : Int)) ≤ line then Except.ok none
  else
    match arrayGet? lines line with
    | none => Except.error "TypeError"
    | some lineText =>
      if ((lineText.length : Int)) ≤ character then Except.ok none
      else
        Except.ok (some (substringJS lineText
          (scanStart lineText character) (scanEnd lineText character)))

/- ### Query handlers -/

/-- `isPositionInRange(line, character, range)`. -/
def isPositionInRange (line character : Int) (range : Range) : Bool :=
  if line < range.start.line || range.stop.line < line then false
  else if line == range.start.line && character < range.start.character then false
  else if line == range.stop.line && range.stop.character < character then false
  else true

/-- The markdown string hover builds for a symbol. -/
def hoverValue (sym : LspSymbol) : List Char :=
  ("**Symbol**: `").data ++ sym.name ++ ("`\n**Type**: `").data ++
    sym.type.data ++ ("`").data

/-- `handleHover`: first symbol of `symbolTable[uri] || []` whose range
contains the position, else `null`.  It never touches the documents
manager. -/
def handleHover (symbolTable : String → List LspSymbol) (uri : String)
    (line character : Int) : Option HoverContents :=
  match (symbolTable uri).find? (fun sym => isPositionInRange line character sym.range) with
  | some sym => some ⟨"markdown", hoverValue sym⟩
  | none => none

/-- `handleDefinition`: `null` when the uri is not open; otherwise resolve
the word (`!word` is true for both `null` and `""`), then return the first
symbol of the table whose name equals the word, else `null`. -/
def handleDefinition (documents : String → Option (List Char))
    (symbolTable : String → List LspSymbol) (uri : String) (line character : Int) :
    Except String (Option Location) :=
  match documents uri with
  | none => Except.ok none
  | some text =>
    match getWordAtPosition text line character with
    | Except.error e => Except.error e
    | Except.ok none => Except.ok none
    | Except.ok (some w) =>
      if w = [] then Except.ok none
      else
        match (symbolTable uri).find? (fun sym => decide (sym.name = w)) with
        | none => Except.ok none
        | some sym => Except.ok (some ⟨sym.docUri, sym.range⟩)

/-- The references loop: for each line, `idx = lines[i].indexOf(word)`; when
`idx !== -1`, push one location at the first occurrence. -/
def refLines (uri : String) (word : List Char) : Nat → List (List Char) → List Location
  | _, [] => []
  | i, l :: ls =>
    (match findSub l word with
     | some idx =>
       [⟨uri, ⟨⟨(i : Int), (idx : Int)⟩, ⟨(i : Int), (idx : Int) + (word.length : Int)⟩⟩⟩]
     | none => []) ++ refLines uri word (i + 1) ls

/-- `handleReferences`: `[]` when the uri is not open or no word resolves,
else one location per line containing the word, at its first occurrence. -/
def handleReferences (documents : String → Option (List Char)) (uri : String)
    (line character : Int) : Except String (List Location) :=
  match documents uri with
  | none => Except.ok []
  | some text =>
    match getWordAtPosition text line character with
    | Except.error e => Except.error e
    | Except.ok none => Except.ok []
    | Except.ok (some w) =>
      if w = [] then Except.ok []
      else Except.ok (refLines uri w 0 (splitLines text))

/-- The rename loop: identical per-line first-occurrence scan, emitting one
text edit per matching line. -/
def renameLines (oldName newName : List Char) : Nat → List (List Char) → List TextEdit
  | _, [] => []
  | i, l :: ls =>
    (match findSub l oldName with
     | some idx =>
       [⟨⟨⟨(i : Int), (idx : Int)⟩, ⟨(i : Int), (idx : Int) + (oldName.length : Int)⟩⟩,
         newName⟩]
     | none => []) ++ renameLines oldName newName (i + 1) ls

/-- `handleRenameRequest`: `null` when the uri is not open or either name is
falsy; else `{changes: {[uri]: edits}}`, modelled as the pair of the single
source uri and its edit list. -/
def handleRenameRequest (documents : String → Option (List Char)) (uri : String)
    (line character : Int) (newName : List Char) :
    Except String (Option (String × List TextEdit)) :=
  match documents uri with
  | none => Except.ok none
  | some text =>
    match getWordAtPosition text line character with
    | Except.error e => Except.error e
    | Except.ok none => Except.ok none
    | Except.ok (some oldName) =>
      if oldName = [] then Except.ok none
      else if newName = [] then Except.ok none
      else Except.ok (some (uri, renameLines oldName newName 0 (splitLines text)))

/- ### Concrete fixtures used by witnesses and counterexamples -/

/-- The spec's running example document. -/
def sampleText : List Char :=
  ("let myVar = 10;\nfunction myFunc() \x7b\n  console.log(myVar);\n\x7d").data

/-- A documents manager holding `sampleText` under every uri. -/
def sampleDocs : String → Option (List Char) := fun _ => some sampleText

/-- The symbol table produced by indexing `sampleText`. -/
def sampleTable : String → List LspSymbol := fun _ => parseDocumentSymbols "u" sampleText

/-- The variable symbol the indexer records for `let myVar = 10;`. -/
def myVarSymbol : LspSymbol := ⟨("myVar").data, ⟨⟨0, 4⟩, ⟨0, 9⟩⟩, "variable", "u"⟩

/-- A table holding just `myVarSymbol` under every uri. -/
def singleTable : String → List LspSymbol := fun _ => [myVarSymbol]

/-- A document whose variable declaration and function declaration share the
identifier text `f`, so both recorded symbols get the same range. -/
def overlapText : List Char := ("let f = function f()").data

/-- The table produced by indexing `overlapText`. -/
def overlapTable : String → List LspSymbol := fun _ => parseDocumentSymbols "u" overlapText

/-- The function symbol recorded for `overlapText`. -/
def overlapFuncSymbol : LspSymbol := ⟨("f").data, ⟨⟨0, 4⟩, ⟨0, 5⟩⟩, "function", "u"⟩

/-- A documents manager with a single one-line document `x`. -/
def tinyDocs : String → Option (List Char) := fun _ => some (("x").data)

/-- A documents manager with no open documents. -/
def absentDocs : String → Option (List Char) := fun _ => none

/-- The empty symbol table. -/
def emptyTable : String → List LspSymbol := fun _ => []

/-- A diagnostics fixture: a short first line, then an 85-character line. -/
def diagText : List Char := ("Short line\n").data ++ List.replicate 85 'a'

/- ### Lemmas about first-occurrence substring search -/

theorem findSub_prefix : ∀ (hay needle : List Char) (k : Nat),
    findSub hay needle = some k → needle <+: hay.drop k := by
  intro hay
  induction hay with
  | nil =>
    intro needle k h
    simp only [findSub] at h
    split at h
    · rename_i he
      cases h
      rw [List.isEmpty_iff] at he
      simp [he]
    · cases h
  | cons c rest ih =>
    intro needle k h
    simp only [findSub] at h
    split at h
    · rename_i hp
      cases h
      simpa using List.isPrefixOf_iff_prefix.mp hp
    · rcases Option.map_eq_some'.mp h with ⟨k', hk', rfl⟩
      simpa using ih needle k' hk'

theorem findSub_least : ∀ (hay needle : List Char) (k : Nat),
    findSub hay needle = some k → ∀ m, m < k → ¬ needle <+: hay.drop m := by
  intro hay
  induction hay with
  | nil =>
    intro needle k h
    simp only [findSub] at h
    split at h
    · cases h; omega
    · cases h
  | cons c rest ih =>
    intro needle k h
    simp only [findSub] at h
    split at h
    · cases h; omega
    · rename_i hp
      rcases Option.map_eq_some'.mp h with ⟨k', hk', rfl⟩
      intro m hm
      cases m with
      | zero =>
        intro hc
        exact hp (List.isPrefixOf_iff_prefix.mpr (by simpa using hc))
      | succ m' =>
        have := ih needle k' hk' m' (by omega)
        simpa using this

theorem findSub_isSome_of_prefix : ∀ (hay needle : List Char) (j : Nat),
    needle <+: hay.drop j → ∃ k, findSub hay needle = some k := by
  intro hay
  induction hay with
  | nil =>
    intro needle j h
    simp only [List.drop_nil, List.prefix_nil] at h
    exact ⟨0, by simp [findSub, h]⟩
  | cons c rest ih =>
    intro needle j h
    by_cases hp : needle.isPrefixOf (c :: rest)
    · exact ⟨0, by simp [findSub, hp]⟩
    · cases j with
      | zero =>
        exact absurd (List.isPrefixOf_iff_prefix.mpr (by simpa using h)) hp
      | succ j' =>
        rcases ih needle j' (by simpa using h) with ⟨k, hk⟩
        exact ⟨k + 1, by simp [findSub, hp, hk]⟩

theorem exists_findSub_of_infix (l cap : List Char) (h : cap <:+: l) :
    ∃ k, findSub l cap = some k := by
  rcases h with ⟨s, t, rfl⟩
  apply findSub_isSome_of_prefix _ _ s.length
  rw [List.append_assoc, List.drop_left]
  exact List.prefix_append cap t

theorem jsIndexOf_of_infix (l cap : List Char) (h : cap <:+: l) :
    ∃ k : Nat, jsIndexOf l cap = (k : Int) ∧ findSub l cap = some k := by
  rcases exists_findSub_of_infix l cap h with ⟨k, hk⟩
  exact ⟨k, by simp [jsIndexOf, hk], hk⟩

theorem lineSlice_of_prefix_drop (l cap : List Char) (k : Nat) (h : cap <+: l.drop k) :
    lineSlice l (k : Int) ((k : Int) + (cap.length : Int)) = cap := by
  have h2 : (l.drop k).take cap.length = cap := (List.prefix_iff_eq_take.mp h).symm
  have ha : ((k : Int)).toNat = k := by omega
  have hb : ((k : Int) + (cap.length : Int)).toNat = k + cap.length := by omega
  unfold lineSlice
  rw [ha, hb, List.drop_take]
  simpa using h2

/- ### The captured identifier occurs inside the scanned line -/

theorem matchTail_some (endCh : Char) (rest cap : List Char)
    (h : matchTail endCh rest = some cap) : cap ≠ [] ∧ cap <:+: rest := by
  simp only [matchTail] at h
  split at h
  · cases h
  · split at h
    · cases h
    · rename_i hne
      split at h
      · split at h
        · cases h
          refine ⟨by simpa [List.isEmpty_iff] using hne, ?_⟩
          refine ⟨rest.takeWhile isSpaceJS,
            (rest.dropWhile isSpaceJS).dropWhile isIdentChar, ?_⟩
          rw [List.append_assoc, List.takeWhile_append_dropWhile,
            List.takeWhile_append_dropWhile]
        · cases h
      · cases h

theorem matchDeclAt_some (kw : List Char) (endCh : Char) (b : Bool) (l cap : List Char)
    (h : matchDeclAt kw endCh b l = some cap) : cap ≠ [] ∧ cap <:+: l := by
  simp only [matchDeclAt] at h
  split at h
  · cases h
  · split at h
    · obtain ⟨h1, h2⟩ := matchTail_some _ _ _ h
      exact ⟨h1, h2.trans (List.drop_suffix _ _).isInfix⟩
    · cases h

theorem matchVarAt_some (b : Bool) (l cap : List Char)
    (h : matchVarAt b l = some cap) : cap ≠ [] ∧ cap <:+: l := by
  simp only [matchVarAt] at h
  rcases hm : matchDeclAt (("let").data) '=' b l with _ | nm
  · rw [hm] at h
    exact matchDeclAt_some _ _ _ _ _ h
  · rw [hm] at h
    cases h
    exact matchDeclAt_some _ _ _ _ _ hm

theorem matchFuncAt_some (b : Bool) (l cap : List Char)
    (h : matchFuncAt b l = some cap) : cap ≠ [] ∧ cap <:+: l :=
  matchDeclAt_some _ _ _ _ _ h

theorem findFirstMatch_some (m : Bool → List Char → Option (List Char))
    (hm : ∀ b l' cap, m b l' = some cap → cap ≠ [] ∧ cap <:+: l') :
    ∀ (l : List Char) (b : Bool) (cap : List Char),
      findFirstMatch m b l = some cap → cap ≠ [] ∧ cap <:+: l := by
  intro l
  induction l with
  | nil => intro b cap h; cases h
  | cons c cs ih =>
    intro b cap h
    simp only [findFirstMatch] at h
    rcases hmc : m b (c :: cs) with _ | nm
    · rw [hmc] at h
      obtain ⟨h1, h2⟩ := ih (isWordCharJS c) cap h
      exact ⟨h1, h2.trans (List.suffix_cons c cs).isInfix⟩
    · rw [hmc] at h
      cases h
      exact hm _ _ _ hmc

theorem varCapture_some (l cap : List Char) (h : varCapture l = some cap) :
    cap ≠ [] ∧ cap <:+: l :=
  findFirstMatch_some matchVarAt matchVarAt_some l false cap h

theorem funcCapture_some (l cap : List Char) (h : funcCapture l = some cap) :
    cap ≠ [] ∧ cap <:+: l :=
  findFirstMatch_some matchFuncAt matchFuncAt_some l false cap h

/- ### Per-line facts about the indexer -/

theorem parseLine_mem (uri : String) (i : Nat) (line : List Char) (s : LspSymbol)
    (h : s ∈ parseLine uri i line) :
    s.docUri = uri ∧ (s.type = "variable" ∨ s.type = "function") ∧
    s.range.start.line = (i : Int) ∧ s.range.stop.line = (i : Int) ∧
    s.name ≠ [] ∧ s.name <:+: line ∧
    s.range.start.character = jsIndexOf line s.name ∧
    s.range.stop.character = jsIndexOf line s.name + (s.name.length : Int) := by
  unfold parseLine at h
  rw [List.mem_append] at h
  rcases h with h | h
  · rcases hv : varCapture line with _ | nm
    · rw [hv] at h; cases h
    · rw [hv] at h
      rw [List.mem_singleton] at h
      subst h
      obtain ⟨hne, hinf⟩ := varCapture_some line nm hv
      exact ⟨rfl, Or.inl rfl, rfl, rfl, hne, hinf, rfl, rfl⟩
  · rcases hf : funcCapture line with _ | nm
    · rw [hf] at h; cases h
    · rw [hf] at h
      rw [List.mem_singleton] at h
      subst h
      obtain ⟨hne, hinf⟩ := funcCapture_some line nm hf
      exact ⟨rfl, Or.inr rfl, rfl, rfl, hne, hinf, rfl, rfl⟩

theorem parseLine_mem_range (uri : String) (i : Nat) (line : List Char) (s : LspSymbol)
    (h : s ∈ parseLine uri i line) :
    ∃ k : Nat, s.range.start.character = (k : Int) ∧
      s.range.stop.character = (k : Int) + (s.name.length : Int) ∧
      s.name <+: line.drop k ∧ (∀ m, m < k → ¬ s.name <+: line.drop m) ∧
      lineSlice line (k : Int) ((k : Int) + (s.name.length : Int)) = s.name ∧
      s.range.start.line = (i : Int) ∧ s.range.stop.line = (i : Int) := by
  obtain ⟨_, _, hl1, hl2, _, hinf, hs, he⟩ := parseLine_mem uri i line s h
  obtain ⟨k, hidx, hfind⟩ := jsIndexOf_of_infix line s.name hinf
  have hpre := findSub_prefix _ _ _ hfind
  exact ⟨k, by rw [hs, hidx], by rw [he, hidx], hpre,
    findSub_least _ _ _ hfind, lineSlice_of_prefix_drop _ _ _ hpre, hl1, hl2⟩

theorem length_filter_singleton {α : Type} (p : α → Bool) (a : α) :
    (List.filter p [a]).length = if p a then 1 else 0 := by
  by_cases h : p a <;> simp [h]

theorem parseLine_filter_le_one (uri : String) (i : Nat) (line : List Char)
    (n : Int) (t : String) :
    ((parseLine uri i line).filter
      (fun s => decide (s.range.start.line = n ∧ s.type = t))).length ≤ 1 := by
  unfold parseLine
  rcases varCapture line with _ | nv <;> rcases funcCapture line with _ | nf <;>
    simp only [List.filter_append, List.length_append, List.filter_nil,
      List.length_nil, List.nil_append, List.append_nil, length_filter_singleton]
  · simp
  · split_ifs <;> simp
  · split_ifs <;> simp
  · split_ifs with h1 h2
    · exfalso
      simp only [decide_eq_true_eq] at h1 h2
      exact absurd (h1.2.trans h2.2.symm) (by decide)
    · simp
    · simp
    · simp

theorem parseLines_mem (uri : String) : ∀ (ls : List (List Char)) (i : Nat) (s : LspSymbol),
    s ∈ parseLines uri i ls →
    ∃ k, ∃ (hk : k < ls.length), s ∈ parseLine uri (i + k) (ls.get ⟨k, hk⟩) := by
  intro ls
  induction ls with
  | nil => intro i s h; cases h
  | cons l ls ih =>
    intro i s h
    simp only [parseLines, List.mem_append] at h
    rcases h with h | h
    · exact ⟨0, by simp, by simpa using h⟩
    · obtain ⟨k, hk, hmem⟩ := ih (i + 1) s h
      refine ⟨k + 1, by simpa using hk, ?_⟩
      have harith : i + 1 + k = i + (k + 1) := by omega
      rw [List.get_cons_succ, ← harith]
      exact hmem

theorem parseLines_line_ge (uri : String) (ls : List (List Char)) (i : Nat) (s : LspSymbol)
    (h : s ∈ parseLines uri i ls) : (i : Int) ≤ s.range.start.line := by
  obtain ⟨k, hk, hmem⟩ := parseLines_mem uri ls i s h
  have := (parseLine_mem uri (i + k) _ s hmem).2.2.1
  rw [this]
  push_cast
  omega

theorem parseLines_filter_le_one (uri : String) : ∀ (ls : List (List Char)) (i : Nat)
    (n : Int) (t : String),
    ((parseLines uri i ls).filter
      (fun s => decide (s.range.start.line = n ∧ s.type = t))).length ≤ 1 := by
  intro ls
  induction ls with
  | nil => intro i n t; simp [parseLines]
  | cons l ls ih =>
    intro i n t
    simp only [parseLines, List.filter_append, List.length_append]
    by_cases hn : n = (i : Int)
    · have h2 : (parseLines uri (i + 1) ls).filter
          (fun s => decide (s.range.start.line = n ∧ s.type = t)) = [] := by
        rw [List.filter_eq_nil_iff]
        intro a ha
        have hge := parseLines_line_ge uri ls (i + 1) a ha
        simp only [decide_eq_true_eq]
        rintro ⟨hl, _⟩
        rw [hl, hn] at hge
        push_cast at hge
        omega
      rw [h2]
      simpa using parseLine_filter_le_one uri i l n t
    · have h1 : (parseLine uri i l).filter
          (fun s => decide (s.range.start.line = n ∧ s.type = t)) = [] := by
        rw [List.filter_eq_nil_iff]
        intro a ha
        have hl := (parseLine_mem uri i l a ha).2.2.1
        simp only [decide_eq_true_eq]
        rintro ⟨hl', _⟩
        exact hn (by rw [← hl', hl])
      rw [h1]
      simpa using ih (i + 1) n t

/- ### C1: per-line shape limit and first-occurrence ranges -/

/-- **C1**: for every input text and every line, indexing records at most one
variable-shape symbol and at most one function-shape symbol per line, and each
recorded symbol's declaration range lies on its line, starting at the index of
the first occurrence of the identifier text anywhere in the line, with
`end = start + name.length`. -/
theorem c1_per_line_shape_and_range (uri : String) (text : List Char) (n : Int) :
    ((parseDocumentSymbols uri text).filter
      (fun s => decide (s.range.start.line = n ∧ s.type = "variable"))).length ≤ 1 ∧
    ((parseDocumentSymbols uri text).filter
      (fun s => decide (s.range.start.line = n ∧ s.type = "function"))).length ≤ 1 ∧
    (∀ s, s ∈ parseDocumentSymbols uri text →
      ∃ j k : Nat, j < (splitLines text).length ∧
        s.range.start.line = (j : Int) ∧ s.range.stop.line = (j : Int) ∧
        s.range.start.character = (k : Int) ∧
        s.range.stop.character = (k : Int) + (s.name.length : Int) ∧
        s.name <+: ((splitLines text).getD j []).drop k ∧
        (∀ m, m < k → ¬ s.name <+: ((splitLines text).getD j []).drop m)) := by
  refine ⟨parseLines_filter_le_one uri _ 0 n _, parseLines_filter_le_one uri _ 0 n _, ?_⟩
  intro s hs
  obtain ⟨j, hj, hmem⟩ := parseLines_mem uri (splitLines text) 0 s hs
  obtain ⟨k, h1, h2, h3, h4, _, hl1, hl2⟩ := parseLine_mem_range uri (0 + j) _ s hmem
  have hgd : (splitLines text).getD j [] = (splitLines text).get ⟨j, hj⟩ := by
    rw [List.getD_eq_getElem _ _ hj, List.get_eq_getElem]
  refine ⟨j, k, hj, by simpa using hl1, by simpa using hl2, h1, h2, ?_, ?_⟩
  · rw [hgd]; exact h3
  · rw [hgd]; exact h4

/-- Witness for C1 at the spec's example document and its `myVar` symbol. -/
theorem c1_witness :
    myVarSymbol ∈ parseDocumentSymbols "u" sampleText ∧
    (∃ j k : Nat, j < (splitLines sampleText).length ∧
      myVarSymbol.range.start.line = (j : Int) ∧
      myVarSymbol.range.stop.line = (j : Int) ∧
      myVarSymbol.range.start.character = (k : Int) ∧
      myVarSymbol.range.stop.character = (k : Int) + (myVarSymbol.name.length : Int) ∧
      myVarSymbol.name <+: ((splitLines sampleText).getD j []).drop k ∧
      (∀ m, m < k → ¬ myVarSymbol.name <+: ((splitLines sampleText).getD j []).drop m)) :=
  ⟨by decide, (c1_per_line_shape_and_range "u" sampleText 0).2.2 myVarSymbol (by decide)⟩

/- ### C2: wholesale replacement and verbatim names -/

/-- **C2**: after `index(uri, text)` the symbol table entry for `uri` equals
exactly the scan of `text` regardless of the previous state (wholesale
replacement; other entries untouched), and the substring of each symbol's
declaration line at the recorded range equals the symbol's name. -/
theorem c2_index_replaces_and_names_verbatim (st : String → List LspSymbol)
    (uri : String) (text : List Char) :
    indexDocument st uri text uri = parseDocumentSymbols uri text ∧
    (∀ u, u ≠ uri → indexDocument st uri text u = st u) ∧
    (∀ s, s ∈ parseDocumentSymbols uri text →
      ∃ j : Nat, j < (splitLines text).length ∧ s.range.start.line = (j : Int) ∧
        lineSlice ((splitLines text).getD j []) s.range.start.character
          s.range.stop.character = s.name) := by
  refine ⟨by simp [indexDocument], fun u hu => by simp [indexDocument, hu], ?_⟩
  intro s hs
  obtain ⟨j, hj, hmem⟩ := parseLines_mem uri (splitLines text) 0 s hs
  obtain ⟨k, h1, h2, _, _, hslice, hl1, _⟩ := parseLine_mem_range uri (0 + j) _ s hmem
  have hgd : (splitLines text).getD j [] = (splitLines text).get ⟨j, hj⟩ := by
    rw [List.getD_eq_getElem _ _ hj, List.get_eq_getElem]
  refine ⟨j, hj, by simpa using hl1, ?_⟩
  rw [hgd, h1, h2]
  exact hslice

/-- Witness for C2: indexing the example document from the empty table, and
the verbatim-name property at the `myVar` symbol. -/
theorem c2_witness :
    indexDocument emptyTable "u" sampleText "u" = parseDocumentSymbols "u" sampleText ∧
    (∃ j : Nat, j < (splitLines sampleText).length ∧
      myVarSymbol.range.start.line = (j : Int) ∧
      lineSlice ((splitLines sampleText).getD j []) myVarSymbol.range.start.character
        myVarSymbol.range.stop.character = myVarSymbol.name) :=
  ⟨(c2_index_replaces_and_names_verbatim emptyTable "u" sampleText).1,
   (c2_index_replaces_and_names_verbatim emptyTable "u" sampleText).2.2 myVarSymbol
     (by decide)⟩

/- ### C4: line-length diagnostics -/

theorem validateLines_line_ge : ∀ (ls : List (List Char)) (i : Nat) (d : Diagnostic),
    d ∈ validateLines i ls → (i : Int) ≤ d.range.start.line := by
  intro ls
  induction ls with
  | nil => intro i d h; cases h
  | cons l ls ih =>
    intro i d h
    simp only [validateLines, List.mem_append] at h
    rcases h with h | h
    · split at h
      · rw [List.mem_singleton] at h
        subst h
        simp
      · cases h
    · have := ih (i + 1) d h
      push_cast at this ⊢
      omega

theorem validateLines_filter : ∀ (ls : List (List Char)) (i k : Nat), k < ls.length →
    (validateLines i ls).filter
        (fun d => decide (d.range.start.line = ((i + k : Nat) : Int))) =
      (if (ls.getD k []).length ≤ 80 then []
       else [⟨2, ⟨⟨((i + k : Nat) : Int), 80⟩,
                  ⟨((i + k : Nat) : Int), ((ls.getD k []).length : Int)⟩⟩,
              "Line exceeds 80 characters.", "demo-lsp"⟩]) := by
  intro ls
  induction ls with
  | nil => intro i k hk; simp at hk
  | cons l ls ih =>
    intro i k hk
    simp only [validateLines, List.filter_append]
    cases k with
    | zero =>
      simp only [Nat.add_zero, List.getD_cons_zero]
      have h2 : (validateLines (i + 1) ls).filter
          (fun d => decide (d.range.start.line = (i : Int))) = [] := by
        rw [List.filter_eq_nil_iff]
        intro a ha
        have hge := validateLines_line_ge ls (i + 1) a ha
        simp only [decide_eq_true_eq]
        intro hl
        rw [hl] at hge
        push_cast at hge
        omega
      rw [h2, List.append_nil]
      by_cases hlen : 80 < l.length
      · rw [if_pos hlen, if_neg (by omega)]
        simp
      · rw [if_neg hlen, if_pos (by omega)]
        simp
    | succ k' =>
      have h1 : ((if 80 < l.length then
            [(⟨2, ⟨⟨(i : Int), 80⟩, ⟨(i : Int), (l.length : Int)⟩⟩,
              "Line exceeds 80 characters.", "demo-lsp"⟩ : Diagnostic)]
          else []).filter
            (fun d => decide (d.range.start.line = ((i + (k' + 1) : Nat) : Int)))) = [] := by
        rw [List.filter_eq_nil_iff]
        intro a ha
        split at ha
        · rw [List.mem_singleton] at ha
          subst ha
          simp only [decide_eq_true_eq]
          intro hl
          push_cast at hl
          omega
        · cases ha
      rw [h1, List.nil_append]
      have harith : i + (k' + 1) = (i + 1) + k' := by omega
      rw [harith, List.getD_cons_succ]
      exact ih (i + 1) k' (by simpa using hk)

/-- **C4**: `check` produces diagnostics exactly for the lines longer than 80
characters: a line of length at most 80 yields none, and a longer line yields
exactly one Warning (severity 2) on that line with range from character 80 to
the line length and the fixed message and source tag. -/
theorem c4_diagnostics_exactly_long_lines (text : List Char) (n : Nat)
    (h : n < (splitLines text).length) :
    (validateTextDocument text).filter
        (fun d => decide (d.range.start.line = (n : Int))) =
      (if ((splitLines text).getD n []).length ≤ 80 then []
       else [⟨2, ⟨⟨(n : Int), 80⟩,
                  ⟨(n : Int), (((splitLines text).getD n []).length : Int)⟩⟩,
              "Line exceeds 80 characters.", "demo-lsp"⟩]) := by
  have := validateLines_filter (splitLines text) 0 n h
  simpa using this

/-- Witness for C4: in `diagText`, the 85-character line yields exactly one
diagnostic with range `[80, 85)` and the short line yields none. -/
theorem c4_witness :
    (validateTextDocument diagText).filter
        (fun d => decide (d.range.start.line = ((1 : Nat) : Int))) =
      [⟨2, ⟨⟨1, 80⟩, ⟨1, 85⟩⟩, "Line exceeds 80 characters.", "demo-lsp"⟩] ∧
    (validateTextDocument diagText).filter
        (fun d => decide (d.range.start.line = ((0 : Nat) : Int))) = [] := by
  constructor
  · rw [c4_diagnostics_exactly_long_lines diagText 1 (by decide)]
    decide
  · rw [c4_diagnostics_exactly_long_lines diagText 0 (by decide)]
    decide

/- ### C3: word-extraction bounds -/

/-- **C3 counterexample**: the claim states that any out-of-bounds position —
including negative values — yields `null`; but at character `-1` of
`let myVar = 10;` the code returns the word `let`, and at line `-1` it throws
a `TypeError` instead of returning `null`. -/
theorem c3_counterexample :
    getWordAtPosition (("let myVar = 10;").data) 0 (-1) ≠ Except.ok none ∧
    getWordAtPosition (("let myVar = 10;").data) 0 (-1) =
      Except.ok (some (("let").data)) ∧
    getWordAtPosition (("let myVar = 10;").data) (-1) 0 =
      Except.error "TypeError" := by
  refine ⟨?_, rfl, rfl⟩
  intro h
  rw [show getWordAtPosition (("let myVar = 10;").data) 0 (-1) =
      Except.ok (some (("let").data)) from rfl] at h
  simp at h

/-- **C3 (amended)**: only the upper bounds behave as claimed — a line at or
past the line count yields `null`, and for a line in range any character at or
past the line length (including the cursor exactly at end-of-line) yields
`null`, both as normal outcomes; the lower bounds are unchecked: a negative
line throws a `TypeError`, and a negative character falls through to the scan
and can return a word. -/
theorem c3_amended_word_bounds (text : List Char) (line character : Int) :
    (((splitLines text).length : Int) ≤ line →
      getWordAtPosition text line character = Except.ok none) ∧
    (line < 0 → getWordAtPosition text line character = Except.error "TypeError") ∧
    (∀ l, arrayGet? (splitLines text) line = some l → (l.length : Int) ≤ character →
      getWordAtPosition text line character = Except.ok none) := by
  refine ⟨?_, ?_, ?_⟩
  · intro h
    simp only [getWordAtPosition]
    rw [if_pos h]
  · intro h
    have h1 : ¬(((splitLines text).length : Int) ≤ line) := by omega
    have h2 : arrayGet? (splitLines text) line = none := by
      unfold arrayGet?
      rw [dif_neg]
      rintro ⟨h3, _⟩
      omega
    simp only [getWordAtPosition]
    rw [if_neg h1, h2]
  · intro l hl hc
    have hb : 0 ≤ line ∧ line.toNat < (splitLines text).length := by
      by_contra hb
      unfold arrayGet? at hl
      rw [dif_neg hb] at hl
      cases hl
    simp only [getWordAtPosition]
    rw [if_neg (by omega), hl]
    exact if_pos hc

/-- Witness for C3's amended theorem: a line past the end and a cursor exactly
at end-of-line both give `null`. -/
theorem c3_witness :
    getWordAtPosition (("ab").data) 5 0 = Except.ok none ∧
    getWordAtPosition (("ab").data) 0 2 = Except.ok none :=
  ⟨(c3_amended_word_bounds (("ab").data) 5 0).1 (by decide),
   (c3_amended_word_bounds (("ab").data) 0 2).2.2 (("ab").data) (by decide) (by decide)⟩

/- ### C8: failure paths -/

theorem getWordAtPosition_ok_of_nonneg (text : List Char) (line character : Int)
    (h : 0 ≤ line) : ∃ r, getWordAtPosition text line character = Except.ok r := by
  by_cases h1 : ((splitLines text).length : Int) ≤ line
  · exact ⟨none, by simp only [getWordAtPosition]; rw [if_pos h1]⟩
  · have hlt : line.toNat < (splitLines text).length := by omega
    have h2 : arrayGet? (splitLines text) line =
        some ((splitLines text).get ⟨line.toNat, hlt⟩) := by
      unfold arrayGet?
      rw [dif_pos ⟨h, hlt⟩]
    by_cases h3 : ((((splitLines text).get ⟨line.toNat, hlt⟩).length : Int)) ≤ character
    · refine ⟨none, ?_⟩
      simp only [getWordAtPosition]
      rw [if_neg h1, h2]
      exact if_pos h3
    · refine ⟨some (substringJS ((splitLines text).get ⟨line.toNat, hlt⟩)
        (scanStart ((splitLines text).get ⟨line.toNat, hlt⟩) character)
        (scanEnd ((splitLines text).get ⟨line.toNat, hlt⟩) character)), ?_⟩
      simp only [getWordAtPosition]
      rw [if_neg h1, h2]
      exact if_neg h3

/-- **C8 counterexample**: with an open document and a negative line value,
the word locator's `TypeError` propagates out of definition, references, and
rename — there is a failure path, contrary to the claim that every operation
terminates normally for every input. -/
theorem c8_counterexample :
    handleDefinition tinyDocs emptyTable "file:a" (-1) 0 = Except.error "TypeError" ∧
    handleReferences tinyDocs "file:a" (-1) 0 = Except.error "TypeError" ∧
    handleRenameRequest tinyDocs "file:a" (-1) 0 (("y").data) =
      Except.error "TypeError" :=
  ⟨rfl, rfl, rfl⟩

/-- **C8 (amended)**: hover, indexing and diagnostics are total, and word
extraction, definition, references and rename terminate normally with an
ordinary (possibly null/empty) result for every input whose line is
non-negative — any uri (present or absent), any character (including negative
and out-of-range), any name; but a negative line reaches `undefined` line
storage and a `TypeError` propagates (see the counterexample). -/
theorem c8_amended_no_failure_for_nonneg_line (documents : String → Option (List Char))
    (symbolTable : String → List LspSymbol) (uri : String) (line character : Int)
    (newName text : List Char) (h : 0 ≤ line) :
    (∃ r, getWordAtPosition text line character = Except.ok r) ∧
    (∃ r, handleDefinition documents symbolTable uri line character = Except.ok r) ∧
    (∃ r, handleReferences documents uri line character = Except.ok r) ∧
    (∃ r, handleRenameRequest documents uri line character newName = Except.ok r) := by
  refine ⟨getWordAtPosition_ok_of_nonneg text line character h, ?_, ?_, ?_⟩
  · rcases hd : documents uri with _ | t
    · exact ⟨none, by simp [handleDefinition, hd]⟩
    · obtain ⟨r, hr⟩ := getWordAtPosition_ok_of_nonneg t line character h
      rcases r with _ | w
      · exact ⟨none, by simp [handleDefinition, hd, hr]⟩
      · by_cases hw : w = []
        · exact ⟨none, by simp [handleDefinition, hd, hr, hw]⟩
        · cases hfind : (symbolTable uri).find? (fun sym => decide (sym.name = w)) with
          | none => exact ⟨none, by simp [handleDefinition, hd, hr, hw, hfind]⟩
          | some s =>
            exact ⟨some ⟨s.docUri, s.range⟩, by simp [handleDefinition, hd, hr, hw, hfind]⟩
  · rcases hd : documents uri with _ | t
    · exact ⟨[], by simp [handleReferences, hd]⟩
    · obtain ⟨r, hr⟩ := getWordAtPosition_ok_of_nonneg t line character h
      rcases r with _ | w
      · exact ⟨[], by simp [handleReferences, hd, hr]⟩
      · by_cases hw : w = []
        · exact ⟨[], by simp [handleReferences, hd, hr, hw]⟩
        · exact ⟨refLines uri w 0 (splitLines t), by simp [handleReferences, hd, hr, hw]⟩
  · rcases hd : documents uri with _ | t
    · exact ⟨none, by simp [handleRenameRequest, hd]⟩
    · obtain ⟨r, hr⟩ := getWordAtPosition_ok_of_nonneg t line character h
      rcases r with _ | w
      · exact ⟨none, by simp [handleRenameRequest, hd, hr]⟩
      · by_cases hw : w = []
        · exact ⟨none, by simp [handleRenameRequest, hd, hr, hw]⟩
        · by_cases hn : newName = []
          · exact ⟨none, by simp [handleRenameRequest, hd, hr, hw, hn]⟩
          · exact ⟨some (uri, renameLines w newName 0 (splitLines t)),
              by simp [handleRenameRequest, hd, hr, hw, hn]⟩

/-- Witness for C8's amended theorem at the example document and line 0. -/
theorem c8_witness :
    (∃ r, getWordAtPosition sampleText 0 0 = Except.ok r) ∧
    (∃ r, handleDefinition sampleDocs sampleTable "u" 0 0 = Except.ok r) ∧
    (∃ r, handleReferences sampleDocs "u" 0 0 = Except.ok r) ∧
    (∃ r, handleRenameRequest sampleDocs "u" 0 0 (("y").data) = Except.ok r) :=
  c8_amended_no_failure_for_nonneg_line sampleDocs sampleTable "u" 0 0
    (("y").data) sampleText (by decide)

/- ### C5: definition is a first-match, whole-document name lookup -/

theorem find?_eq_some_of_first {α : Type} (p : α → Bool) :
    ∀ (l : List α) (k : Nat) (s : α), l.get? k = some s → p s = true →
      (∀ j s', j < k → l.get? j = some s' → p s' = false) →
      l.find? p = some s := by
  intro l
  induction l with
  | nil => intro k s h _ _; cases h
  | cons a t ih =>
    intro k s hget hp hfirst
    cases k with
    | zero =>
      rw [List.get?_cons_zero] at hget
      injection hget with h
      subst h
      rw [List.find?_cons, hp]
    | succ k' =>
      have hpa : p a = false := hfirst 0 a (Nat.succ_pos k') List.get?_cons_zero
      rw [List.find?_cons, hpa]
      rw [List.get?_cons_succ] at hget
      exact ih k' s hget hp (fun j s' hj hg => hfirst (j + 1) s' (by omega)
        (by rw [List.get?_cons_succ]; exact hg))

/-- **C5**: definition resolves the word via the word locator — a null or
empty word yields `null`; otherwise it returns the location of the *first*
symbol in the table for the uri, in declaration order, whose name equals the
word (whole-document name match, not scope-aware), and `null` when no declared
symbol shares the name. -/
theorem c5_definition_first_name_match (documents : String → Option (List Char))
    (symbolTable : String → List LspSymbol) (uri : String) (line character : Int)
    (text : List Char) (hdoc : documents uri = some text) :
    (getWordAtPosition text line character = Except.ok none →
      handleDefinition documents symbolTable uri line character = Except.ok none) ∧
    (getWordAtPosition text line character = Except.ok (some []) →
      handleDefinition documents symbolTable uri line character = Except.ok none) ∧
    (∀ w, w ≠ [] → getWordAtPosition text line character = Except.ok (some w) →
      ((∀ s ∈ symbolTable uri, s.name ≠ w) →
        handleDefinition documents symbolTable uri line character = Except.ok none) ∧
      (∀ k s, (symbolTable uri).get? k = some s → s.name = w →
        (∀ j s', j < k → (symbolTable uri).get? j = some s' → s'.name ≠ w) →
        handleDefinition documents symbolTable uri line character =
          Except.ok (some ⟨s.docUri, s.range⟩))) := by
  refine ⟨?_, ?_, ?_⟩
  · intro hw
    simp [handleDefinition, hdoc, hw]
  · intro hw
    simp [handleDefinition, hdoc, hw]
  · intro w hwne hw
    constructor
    · intro hnone
      have hfind : (symbolTable uri).find? (fun sym => decide (sym.name = w)) = none := by
        rw [List.find?_eq_none]
        intro x hx
        simp only [decide_eq_true_eq]
        exact hnone x hx
      simp [handleDefinition, hdoc, hw, hwne, hfind]
    · intro k s hget hname hfirst
      have hfind : (symbolTable uri).find? (fun sym => decide (sym.name = w)) = some s := by
        apply find?_eq_some_of_first _ _ k s hget (by simp [hname])
        intro j s' hj hg
        rw [decide_eq_false_iff_not]
        exact hfirst j s' hj hg
      simp [handleDefinition, hdoc, hw, hwne, hfind]

/-- Witness for C5 at the example document: `definition` at the `myVar` usage
on line 2 returns the declaration location on line 0. -/
theorem c5_witness :
    handleDefinition sampleDocs sampleTable "u" 2 15 =
      Except.ok (some ⟨myVarSymbol.docUri, myVarSymbol.range⟩) :=
  ((c5_definition_first_name_match sampleDocs sampleTable "u" 2 15 sampleText
      rfl).2.2 (("myVar").data) (by decide) rfl).2 0 myVarSymbol rfl rfl
    (fun j s' hj _ => absurd hj (Nat.not_lt_zero j))

/- ### C6: references records first occurrences, one per matching line -/

theorem refLines_line_ge (uri : String) (w : List Char) :
    ∀ (ls : List (List Char)) (i : Nat) (loc : Location),
      loc ∈ refLines uri w i ls → (i : Int) ≤ loc.range.start.line := by
  intro ls
  induction ls with
  | nil => intro i loc h; cases h
  | cons l ls ih =>
    intro i loc h
    simp only [refLines, List.mem_append] at h
    rcases h with h | h
    · rcases hf : findSub l w with _ | k <;> simp only [hf] at h
      · cases h
      · rw [List.mem_singleton] at h
        subst h
        simp
    · have := ih (i + 1) loc h
      push_cast at this ⊢
      omega

theorem refLines_filter (uri : String) (w : List Char) :
    ∀ (ls : List (List Char)) (i k : Nat), k < ls.length →
    (refLines uri w i ls).filter
        (fun loc => decide (loc.range.start.line = ((i + k : Nat) : Int))) =
      (match findSub (ls.getD k []) w with
       | some idx => [⟨uri, ⟨⟨((i + k : Nat) : Int), (idx : Int)⟩,
                       ⟨((i + k : Nat) : Int), (idx : Int) + (w.length : Int)⟩⟩⟩]
       | none => []) := by
  intro ls
  induction ls with
  | nil => intro i k hk; simp at hk
  | cons l ls ih =>
    intro i k hk
    simp only [refLines, List.filter_append]
    cases k with
    | zero =>
      simp only [Nat.add_zero, List.getD_cons_zero]
      have h2 : (refLines uri w (i + 1) ls).filter
          (fun loc => decide (loc.range.start.line = (i : Int))) = [] := by
        rw [List.filter_eq_nil_iff]
        intro a ha
        have hge := refLines_line_ge uri w ls (i + 1) a ha
        simp only [decide_eq_true_eq]
        intro hl
        rw [hl] at hge
        push_cast at hge
        omega
      rw [h2, List.append_nil]
      rcases hf : findSub l w with _ | idx <;> simp [hf, List.filter_cons]
    | succ k' =>
      have h1 : ((match findSub l w with
          | some idx => [(⟨uri, ⟨⟨(i : Int), (idx : Int)⟩,
                          ⟨(i : Int), (idx : Int) + (w.length : Int)⟩⟩⟩ : Location)]
          | none => []).filter
            (fun loc : Location =>
              decide (loc.range.start.line = ((i + (k' + 1) : Nat) : Int)))) = [] := by
        rw [List.filter_eq_nil_iff]
        intro a ha
        rcases hf : findSub l w with _ | idx <;> simp only [hf] at ha
        · cases ha
        · rw [List.mem_singleton] at ha
          subst ha
          simp only [decide_eq_true_eq]
          intro hl
          push_cast at hl
          omega
      rw [h1, List.nil_append]
      have harith : i + (k' + 1) = (i + 1) + k' := by omega
      rw [harith, List.getD_cons_succ]
      exact ih (i + 1) k' (by simpa using hk)

/-- **C6**: when the word locator resolves a word, references returns exactly
one location per line of the text that contains the word as a substring, at
the first occurrence of the word on that line; consequently every indexed
symbol whose name equals the word contributes a location on its declaration
line. -/
theorem c6_references_per_line (documents : String → Option (List Char)) (uri : String)
    (line character : Int) (text w : List Char)
    (hdoc : documents uri = some text)
    (hw : getWordAtPosition text line character = Except.ok (some w))
    (hwne : w ≠ []) :
    ∃ locs, handleReferences documents uri line character = Except.ok locs ∧
      (∀ n : Nat, n < (splitLines text).length →
        locs.filter (fun loc => decide (loc.range.start.line = (n : Int))) =
          (match findSub ((splitLines text).getD n []) w with
           | some idx => [⟨uri, ⟨⟨(n : Int), (idx : Int)⟩,
                           ⟨(n : Int), (idx : Int) + (w.length : Int)⟩⟩⟩]
           | none => [])) ∧
      (∀ s, s ∈ parseDocumentSymbols uri text → s.name = w →
        ∃ loc, loc ∈ locs ∧ loc.uri = uri ∧
          loc.range.start.line = s.range.start.line) := by
  refine ⟨refLines uri w 0 (splitLines text),
    by simp [handleReferences, hdoc, hw, hwne], ?_, ?_⟩
  · intro n hn
    have := refLines_filter uri w (splitLines text) 0 n hn
    simpa using this
  · intro s hs hname
    subst hname
    obtain ⟨j, hj, hmem⟩ := parseLines_mem uri (splitLines text) 0 s hs
    have hline := (parseLine_mem uri (0 + j) _ s hmem).2.2.1
    have hinf := (parseLine_mem uri (0 + j) _ s hmem).2.2.2.2.2.1
    have hgd : (splitLines text).getD j [] = (splitLines text).get ⟨j, hj⟩ := by
      rw [List.getD_eq_getElem _ _ hj, List.get_eq_getElem]
    obtain ⟨k0, hfs⟩ := exists_findSub_of_infix _ s.name hinf
    have hfilter := refLines_filter uri s.name (splitLines text) 0 j hj
    rw [hgd, hfs] at hfilter
    have hmem0 : (⟨uri, ⟨⟨((0 + j : Nat) : Int), (k0 : Int)⟩,
        ⟨((0 + j : Nat) : Int), (k0 : Int) + (s.name.length : Int)⟩⟩⟩ : Location) ∈
        refLines uri s.name 0 (splitLines text) := by
      have : (⟨uri, ⟨⟨((0 + j : Nat) : Int), (k0 : Int)⟩,
          ⟨((0 + j : Nat) : Int), (k0 : Int) + (s.name.length : Int)⟩⟩⟩ : Location) ∈
          (refLines uri s.name 0 (splitLines text)).filter
            (fun loc => decide (loc.range.start.line = ((0 + j : Nat) : Int))) := by
        rw [hfilter]
        exact List.mem_singleton.mpr rfl
      exact (List.mem_filter.mp this).1
    refine ⟨_, hmem0, rfl, ?_⟩
    rw [hline]

/-- Witness for C6 at the example document: references at the `myVar` usage
position. -/
theorem c6_witness :
    ∃ locs, handleReferences sampleDocs "u" 2 15 = Except.ok locs ∧
      (∀ n : Nat, n < (splitLines sampleText).length →
        locs.filter (fun loc => decide (loc.range.start.line = (n : Int))) =
          (match findSub ((splitLines sampleText).getD n []) (("myVar").data) with
           | some idx => [⟨"u", ⟨⟨(n : Int), (idx : Int)⟩,
                           ⟨(n : Int), (idx : Int) + ((("myVar").data).length : Int)⟩⟩⟩]
           | none => [])) ∧
      (∀ s, s ∈ parseDocumentSymbols "u" sampleText → s.name = ("myVar").data →
        ∃ loc, loc ∈ locs ∧ loc.uri = "u" ∧
          loc.range.start.line = s.range.start.line) :=
  c6_references_per_line sampleDocs "u" 2 15 sampleText (("myVar").data)
    rfl rfl (by decide)

/- ### C7: rename mirrors references -/

theorem renameLines_eq_map (uri : String) (oldName newName : List Char) :
    ∀ (ls : List (List Char)) (i : Nat),
      renameLines oldName newName i ls =
        (refLines uri oldName i ls).map
          (fun loc => (⟨loc.range, newName⟩ : TextEdit)) := by
  intro ls
  induction ls with
  | nil => intro i; rfl
  | cons l ls ih =>
    intro i
    simp only [renameLines, refLines, List.map_append]
    rw [ih (i + 1)]
    congr 1
    rcases findSub l oldName with _ | idx <;> simp

/-- **C7**: when the word locator resolves a word and `newName` is non-empty,
rename returns edits scoped to the single source uri whose count equals the
count of references' locations for the same position, with pairwise equal
ranges and every replacement text equal to `newName`. -/
theorem c7_rename_matches_references (documents : String → Option (List Char))
    (uri : String) (line character : Int) (newName text w : List Char)
    (hdoc : documents uri = some text)
    (hw : getWordAtPosition text line character = Except.ok (some w))
    (hwne : w ≠ []) (hnew : newName ≠ []) :
    ∃ edits locs,
      handleRenameRequest documents uri line character newName =
        Except.ok (some (uri, edits)) ∧
      handleReferences documents uri line character = Except.ok locs ∧
      edits.length = locs.length ∧
      (∀ i : Nat, (edits.get? i).map TextEdit.range = (locs.get? i).map Location.range) ∧
      (∀ e, e ∈ edits → e.newText = newName) := by
  refine ⟨renameLines w newName 0 (splitLines text), refLines uri w 0 (splitLines text),
    by simp [handleRenameRequest, hdoc, hw, hwne, hnew],
    by simp [handleReferences, hdoc, hw, hwne], ?_, ?_, ?_⟩
  · rw [renameLines_eq_map uri w newName]
    exact List.length_map _ _
  · intro i
    rw [renameLines_eq_map uri w newName, List.get?_map]
    rcases (refLines uri w 0 (splitLines text)).get? i with _ | loc <;> simp
  · intro e he
    rw [renameLines_eq_map uri w newName, List.mem_map] at he
    obtain ⟨loc, _, heq⟩ := he
    rw [← heq]

/-- Witness for C7 at the example document: rename of `myVar` to `newVar`. -/
theorem c7_witness :
    ∃ edits locs,
      handleRenameRequest sampleDocs "u" 2 15 (("newVar").data) =
        Except.ok (some ("u", edits)) ∧
      handleReferences sampleDocs "u" 2 15 = Except.ok locs ∧
      edits.length = locs.length ∧
      (∀ i : Nat, (edits.get? i).map TextEdit.range = (locs.get? i).map Location.range) ∧
      (∀ e, e ∈ edits → e.newText = ("newVar").data) :=
  c7_rename_matches_references sampleDocs "u" 2 15 (("newVar").data) sampleText
    (("myVar").data) rfl rfl (by decide) (by decide)

/- ### C9: hover containment at range boundaries -/

/-- **C9 counterexample**: the claim says hover at a symbol's boundary
positions reports *that* symbol; but in `let f = function f()` the variable
symbol and the function symbol are recorded with the identical range `[4, 5)`
on line 0, and hover at `(0, 5)` reports the variable symbol (the first
containing match), not the function symbol. -/
theorem c9_counterexample :
    overlapFuncSymbol ∈ overlapTable "u" ∧
    overlapFuncSymbol.range = ⟨⟨0, 4⟩, ⟨0, 5⟩⟩ ∧
    handleHover overlapTable "u" 0 5 ≠ some ⟨"markdown", hoverValue overlapFuncSymbol⟩ ∧
    handleHover overlapTable "u" 0 5 =
      some ⟨"markdown", hoverValue ⟨(("f").data), ⟨⟨0, 4⟩, ⟨0, 5⟩⟩, "variable", "u"⟩⟩ :=
  ⟨by decide, rfl, by decide, by decide⟩

/-- **C9 (amended)**: range containment is inclusive at both character bounds,
so hover at a symbol's start character and at its end character (the column
just after the name) reports the first symbol of the table whose range
contains that position — which is the given symbol whenever no earlier table
entry's range also contains it (in particular whenever it is the only
symbol whose range covers the position). -/
theorem c9_amended_hover_inclusive (tbl : String → List LspSymbol) (uri : String)
    (pre post : List LspSymbol) (sym : LspSymbol) (l s e : Int)
    (htbl : tbl uri = pre ++ sym :: post)
    (hr : sym.range = ⟨⟨l, s⟩, ⟨l, e⟩⟩) (hse : s ≤ e)
    (hpre : ∀ x ∈ pre, isPositionInRange l s x.range = false ∧
      isPositionInRange l e x.range = false) :
    isPositionInRange l s sym.range = true ∧
    isPositionInRange l e sym.range = true ∧
    handleHover tbl uri l s = some ⟨"markdown", hoverValue sym⟩ ∧
    handleHover tbl uri l e = some ⟨"markdown", hoverValue sym⟩ := by
  have hc1 : isPositionInRange l s sym.range = true := by
    simp [isPositionInRange, hr]
    omega
  have hc2 : isPositionInRange l e sym.range = true := by
    simp [isPositionInRange, hr]
    omega
  have hfind : ∀ c : Int, (∀ x ∈ pre, isPositionInRange l c x.range = false) →
      isPositionInRange l c sym.range = true →
      (tbl uri).find? (fun sy => isPositionInRange l c sy.range) = some sym := by
    intro c hp hcs
    rw [htbl, List.find?_append]
    have hnone : pre.find? (fun sy => isPositionInRange l c sy.range) = none :=
      List.find?_eq_none.mpr (fun x hx => by simp [hp x hx])
    rw [hnone, List.find?_cons, hcs]
    rfl
  refine ⟨hc1, hc2, ?_, ?_⟩
  · simp [handleHover, hfind s (fun x hx => (hpre x hx).1) hc1]
  · simp [handleHover, hfind e (fun x hx => (hpre x hx).2) hc2]

/-- Witness for C9's amended theorem: a single-symbol table, hover at the
start column 4 and at the end column 9 of `myVar`'s range. -/
theorem c9_witness :
    isPositionInRange 0 4 myVarSymbol.range = true ∧
    isPositionInRange 0 9 myVarSymbol.range = true ∧
    handleHover singleTable "u" 0 4 = some ⟨"markdown", hoverValue myVarSymbol⟩ ∧
    handleHover singleTable "u" 0 9 = some ⟨"markdown", hoverValue myVarSymbol⟩ :=
  c9_amended_hover_inclusive singleTable "u" [] [] myVarSymbol 0 4 9 rfl rfl
    (by decide) (fun x hx => absurd hx (List.not_mem_nil x))

/- ### C10: a uri absent from the documents manager -/

/-- **C10**: for a uri that is not present in the documents manager,
definition returns `null`, rename returns `null`, and references returns `[]`,
whatever the symbol table and position (neither the table nor any text is
consulted); hover, by contrast, reads only the symbol table and can answer for
such a uri. -/
theorem c10_absent_uri_null (documents : String → Option (List Char))
    (symbolTable : String → List LspSymbol) (uri : String) (line character : Int)
    (newName : List Char) (h : documents uri = none) :
    handleDefinition documents symbolTable uri line character = Except.ok none ∧
    handleReferences documents uri line character = Except.ok [] ∧
    handleRenameRequest documents uri line character newName = Except.ok none ∧
    handleHover singleTable uri 0 6 = some ⟨"markdown", hoverValue myVarSymbol⟩ := by
  refine ⟨by simp [handleDefinition, h], by simp [handleReferences, h],
    by simp [handleRenameRequest, h], rfl⟩

/-- Witness for C10 at an empty documents manager, an arbitrary table, and an
out-of-range negative position. -/
theorem c10_witness :
    handleDefinition absentDocs sampleTable "file:missing" (-5) (-7) = Except.ok none ∧
    handleReferences absentDocs "file:missing" (-5) (-7) = Except.ok [] ∧
    handleRenameRequest absentDocs "file:missing" (-5) (-7) (("nn").data) =
      Except.ok none ∧
    handleHover singleTable "file:missing" 0 6 =
      some ⟨"markdown", hoverValue myVarSymbol⟩ :=
  c10_absent_uri_null absentDocs sampleTable "file:missing" (-5) (-7)
    (("nn").data) rfl
